import Mathlib

/-!
# Inner PTE cache of the x86 TLB model (`src/GEM5/MMU/tlb.hh`)

A shallow embedding of the parts of `gem5::X86ISA::TLB` and of its nested class
`TLB::InnerCache` that are defined in the header, followed by a model of the
member functions that the header only declares.  The log tool `hit_rate.c` is
embedded in the namespace `HitRate` further down.

Conventions.
* `Addr` and every `uint64_t` are natural numbers; where the C++ arithmetic can
  wrap, the reduction modulo `2^64` is written out.
* `std::unordered_map<Addr, T>` is an association list in insertion order,
  `std::set<Addr>` is a `Finset`.
* A member function that mutates the object takes the state and returns the new
  state; a `const` member function that is also asked about its effect on the
  state returns the pair of its result and the (same) state.
-/

namespace X86ISA

/-- Addresses: `Addr` is an unsigned 64-bit integer in the simulator. -/
abbrev Addr := Nat

/-- The modulus of `uint64_t` arithmetic. -/
def U64 : Nat := 2 ^ 64

/-! ## `TLB`: the two inline members -/

/-- The part of the `TLB` object that `nextSeq` reads and writes
(`uint64_t lruSeq`, line 108). -/
structure TLB where
  lruSeq : Nat
  deriving DecidableEq, Repr

/-- `concAddrPcid` (lines 80-83): `return (vpn | pcid);`. -/
def TLB.concAddrPcid (vpn : Addr) (pcid : Nat) : Addr :=
  vpn ||| pcid

/-- `nextSeq` (lines 137-141): `return ++lruSeq;` on a `uint64_t`.  The result
is the returned value together with the updated object. -/
def TLB.nextSeq (t : TLB) : Nat × TLB :=
  let v := (t.lruSeq + 1) % U64
  (v, { t with lruSeq := v })

/-! ## `TLB::InnerCache`: state -/

/-- The three counters of `TlbStats` that belong to the inner cache
(lines 121-124).  The cache holds a pointer to them; here they travel with the
state. -/
structure TlbStats where
  innerCacheAccesses : Int
  innerCacheMisses : Int
  innerCachePinnedCount : Int
  deriving DecidableEq, Repr

/-- The fields of `InnerCache` (lines 191-203). -/
structure InnerCache where
  cache : List (Addr × Addr)
  cacheSize : Nat
  pinnedList : Finset Addr
  maxPinnedSize : Nat
  accessHistory : List (Addr × Nat)
  pinThreshold : Nat
  lruTable : List (Addr × Nat)
  currentLRUSeq : Nat
  stats : TlbStats
  deriving DecidableEq

/-- Keys of the store `cache`. -/
def InnerCache.keys (s : InnerCache) : List Addr :=
  s.cache.map Prod.fst

/-- `isEmpty` (line 210): `return cache.size() < cacheSize;`. -/
def InnerCache.isEmpty (s : InnerCache) : Bool :=
  decide (s.cache.length < s.cacheSize)

/-- `isPinningEmpty` (line 217): `return pinnedList.size() < maxPinnedSize;`. -/
def InnerCache.isPinningEmpty (s : InnerCache) : Bool :=
  decide (s.pinnedList.card < s.maxPinnedSize)

/-- `checkPin` (line 266), a `const` member:
`return pinnedList.find(vAddr) != pinnedList.end();`.  The second component is
the object after the call. -/
def InnerCache.checkPin (s : InnerCache) (vAddr : Addr) : Bool × InnerCache :=
  (decide (vAddr ∈ s.pinnedList), s)

/-- The member initialisers of the constructor (lines 285-287): the three
parameters and the stats handle are stored, `currentLRUSeq` is `0`, and the
four containers are default-constructed, hence empty. -/
def InnerCache.init (cacheSize maxPinnedSize pinThreshold : Nat) (stats : TlbStats) :
    InnerCache :=
  { cache := []
    cacheSize := cacheSize
    pinnedList := ∅
    maxPinnedSize := maxPinnedSize
    accessHistory := []
    pinThreshold := pinThreshold
    lruTable := []
    currentLRUSeq := 0
    stats := stats }

/-- A configuration error, the only failure a constructor could report. -/
structure ConfigError where
  message : String
  deriving DecidableEq, Repr

/-- The constructor `InnerCache::InnerCache` (lines 285-288) as a computation
that may fail.  Its body is `{ }`: after the member initialisers nothing is
checked and nothing is thrown. -/
def InnerCache.construct (cacheSize maxPinnedSize pinThreshold : Nat) (stats : TlbStats) :
    Except ConfigError InnerCache :=
  Except.ok (InnerCache.init cacheSize maxPinnedSize pinThreshold stats)

/-! ## Association lists standing for `std::unordered_map<Addr, T>` -/

/-- The value stored under `k` (`unordered_map::find`), if any. -/
def mapFind (m : List (Addr × Nat)) (k : Addr) : Option Nat :=
  (m.find? (fun e => e.1 == k)).map Prod.snd

/-- Removal of the key `k` (`unordered_map::erase`). -/
def mapErase (m : List (Addr × Nat)) (k : Addr) : List (Addr × Nat) :=
  m.filter (fun e => e.1 != k)

/-- Assignment `m[k] = v`. -/
def mapSet (m : List (Addr × Nat)) (k : Addr) (v : Nat) : List (Addr × Nat) :=
  mapErase m k ++ [(k, v)]

/-! ## Member functions that the header declares and does not define

`checkExistence`, `invalidate`, `evict`, `insert`, `increaseCount`,
`updateLRUCount`, `tryPin`, `pin`, `unpin`, `checkPinningPhase` and
`checkCacheLatency` are declared on lines 225-298 of `tlb.hh`; their bodies are
in a translation unit that is not part of the sources at hand.  They are
modelled from sections 4.1-4.5 of the specification, over the fields above. -/

/-- Modelled from the spec: the body of `InnerCache::checkExistence` is missing.
Section 4.1, exists-and-matches: true iff an entry for `vAddr` is resident and
its stored physical address equals `pAddr`. -/
def InnerCache.checkExistence (s : InnerCache) (vAddr pAddr : Addr) : Bool :=
  mapFind s.cache vAddr == some pAddr

/-- Modelled from the spec: residency of a key, the common part of
exists-and-matches and exists-but-stale in section 4.1 (no member function of
this name exists; the missing bodies would test `cache.find`). -/
def InnerCache.resident (s : InnerCache) (vAddr : Addr) : Bool :=
  (mapFind s.cache vAddr).isSome

/-- Modelled from the spec: the body of `InnerCache::pin` is missing.
Section 4.4: add to PinSet, increment the pinned-count stat. -/
def InnerCache.pin (s : InnerCache) (vAddr : Addr) : InnerCache :=
  { s with
    pinnedList := insert vAddr s.pinnedList
    stats := { s.stats with innerCachePinnedCount := s.stats.innerCachePinnedCount + 1 } }

/-- Modelled from the spec: the body of `InnerCache::unpin` is missing.
Section 4.4: removes from PinSet, decrements the pinned-count stat; the entry
remains resident. -/
def InnerCache.unpin (s : InnerCache) (vAddr : Addr) : InnerCache :=
  { s with
    pinnedList := s.pinnedList.erase vAddr
    stats := { s.stats with innerCachePinnedCount := s.stats.innerCachePinnedCount - 1 } }

/-- Modelled from the spec: destruction of a resident entry, shared by the
missing bodies of `invalidate` and `evict`.  Section 3: an entry carries the
physical address, the access count and the LRU sequence, and is destroyed on
eviction or invalidation; only resident entries carry a sequence value. -/
def InnerCache.dropEntry (s : InnerCache) (vAddr : Addr) : InnerCache :=
  { s with
    cache := mapErase s.cache vAddr
    accessHistory := mapErase s.accessHistory vAddr
    lruTable := mapErase s.lruTable vAddr }

/-- Modelled from the spec: the body of `InnerCache::invalidate` is missing.
Section 4.1: removes the entry regardless of pinned status; also unpins and
clears its access history.  The unpin comes first, the order section 4.3 states
for the forced eviction. -/
def InnerCache.invalidate (s : InnerCache) (vAddr : Addr) : InnerCache :=
  let s1 := if (s.checkPin vAddr).1 then s.unpin vAddr else s
  s1.dropEntry vAddr

/-- Modelled from the spec: the states `invalidate` passes through, in order:
the state after its unpin step, when the entry is pinned, and the state after
the removal of the entry. -/
def InnerCache.invalidateSteps (s : InnerCache) (vAddr : Addr) : List InnerCache :=
  if (s.checkPin vAddr).1 then [s.unpin vAddr, (s.unpin vAddr).dropEntry vAddr]
  else [s.dropEntry vAddr]

/-- Modelled from the spec: the lastAccessSequence of an entry (section 3), read
from `lruTable`; `0` when the table has none. -/
def InnerCache.seqOf (s : InnerCache) (vAddr : Addr) : Nat :=
  (mapFind s.lruTable vAddr).getD 0

/-- Modelled from the spec: the accessCount of an entry (section 3), read from
`accessHistory`; `0` when the history has none. -/
def InnerCache.countOf (s : InnerCache) (vAddr : Addr) : Nat :=
  (mapFind s.accessHistory vAddr).getD 0

/-- Modelled from the spec: victim selection inside the missing body of
`InnerCache::evict`.  Section 4.3: the candidate with the smallest
lastAccessSequence, ties broken by insertion order (earliest first). -/
def lruVictim (seq : Addr → Nat) : List Addr → Option Addr
  | [] => none
  | a :: rest =>
    match lruVictim seq rest with
    | none => some a
    | some b => if seq a ≤ seq b then some a else some b

/-- Modelled from the spec: the body of `InnerCache::evict` is missing.
Section 4.3: the candidates are the resident entries that are not pinned and the
victim is the least recently used of them; if there is no candidate, the least
recently used pinned entry is force-unpinned and then evicted. -/
def InnerCache.evict (s : InnerCache) : InnerCache :=
  match lruVictim s.seqOf (s.keys.filter (fun k => !(s.checkPin k).1)) with
  | some v => s.dropEntry v
  | none =>
    match lruVictim s.seqOf (s.keys.filter (fun k => (s.checkPin k).1)) with
    | some v => (s.unpin v).dropEntry v
    | none => s

/-- Modelled from the spec: the states `evict` passes through, in order: the
state after the removal of an unpinned victim, or, on the forced path, the state
after the unpin step and the state after the removal; the unchanged state when
the store is empty. -/
def InnerCache.evictSteps (s : InnerCache) : List InnerCache :=
  match lruVictim s.seqOf (s.keys.filter (fun k => !(s.checkPin k).1)) with
  | some v => [s.dropEntry v]
  | none =>
    match lruVictim s.seqOf (s.keys.filter (fun k => (s.checkPin k).1)) with
    | some v => [s.unpin v, (s.unpin v).dropEntry v]
    | none => [s]

/-- Modelled from the spec: the body of `InnerCache::insert` is missing.
Section 4.1: requires `|store| < cacheSize`; creates a fresh entry with access
count `0` and the current LRU sequence; never overwrites an existing pinned
entry.  Section 4.2: with `cacheSize = 0` insert is a no-op.  Here a full store
and a key that is already resident both leave the state as it is; inside
`checkCacheLatency` the key is never resident when `insert` runs. -/
def InnerCache.insert (s : InnerCache) (vAddr pAddr : Addr) : InnerCache :=
  if s.isEmpty && !s.resident vAddr then
    { s with
      cache := s.cache ++ [(vAddr, pAddr)]
      accessHistory := mapSet s.accessHistory vAddr 0
      lruTable := mapSet s.lruTable vAddr s.currentLRUSeq }
  else s

/-- Modelled from the spec: the body of `InnerCache::updateLRUCount` is missing.
Section 3: a monotonically increasing sequence counter; each access stamps the
entry; only resident entries carry a sequence value.  The counter is the
`uint64_t` field `currentLRUSeq`. -/
def InnerCache.updateLRUCount (s : InnerCache) (vAddr : Addr) : InnerCache :=
  let n := (s.currentLRUSeq + 1) % U64
  { s with
    currentLRUSeq := n
    lruTable := if s.resident vAddr then mapSet s.lruTable vAddr n else s.lruTable }

/-- Modelled from the spec: the body of `InnerCache::increaseCount` is missing.
Section 4.4: `accessCount += 1` for the resident entry. -/
def InnerCache.increaseCount (s : InnerCache) (vAddr : Addr) : InnerCache :=
  if s.resident vAddr then
    { s with accessHistory := mapSet s.accessHistory vAddr ((s.countOf vAddr + 1) % U64) }
  else s

/-- Modelled from the spec: the body of `InnerCache::tryPin` is missing.
Section 4.4: no-op if already pinned or if the pin set is at `maxPinnedSize`;
otherwise, if `accessCount ≥ pinThreshold`, pin the entry.  The access count is
the one recorded in `accessHistory` for the address. -/
def InnerCache.tryPin (s : InnerCache) (vAddr : Addr) : InnerCache :=
  if (s.checkPin vAddr).1 then s
  else if !s.isPinningEmpty then s
  else if s.pinThreshold ≤ s.countOf vAddr then s.pin vAddr
  else s

/-- Modelled from the spec: the body of `InnerCache::checkPinningPhase` is
missing and section 4.5 leaves its control law open: a strategy computes the
new `pinThreshold` from the current state.  The strategy is a parameter. -/
def InnerCache.checkPinningPhase (adjust : InnerCache → Nat) (s : InnerCache) : InnerCache :=
  { s with pinThreshold := adjust s }

/-- Modelled from the spec: the stats update of a hit, section 4.2 step 1
(increment the access counter, not the miss counter). -/
def InnerCache.recordHit (s : InnerCache) : InnerCache :=
  { s with stats := { s.stats with innerCacheAccesses := s.stats.innerCacheAccesses + 1 } }

/-- Modelled from the spec: the stats update of a miss, section 4.2 step 3
(increment the miss counter and the access counter). -/
def InnerCache.recordMiss (s : InnerCache) : InnerCache :=
  { s with stats := { s.stats with
      innerCacheAccesses := s.stats.innerCacheAccesses + 1
      innerCacheMisses := s.stats.innerCacheMisses + 1 } }

/-- Modelled from the spec: the states that one call of
`InnerCache::checkCacheLatency` (the spec's `observe`, section 4.2) passes
through, in order: one after each step it performs, with the states inside
`invalidate` and `evict` (after their unpin step and after their removal step)
in between; the last one is the state after the call. -/
def InnerCache.checkCacheLatencySteps (adjust : InnerCache → Nat) (s : InnerCache)
    (vAddr pAddr : Addr) : List InnerCache :=
  if s.checkExistence vAddr pAddr then
    let s1 := s.recordHit
    let s2 := s1.updateLRUCount vAddr
    let s3 := s2.increaseCount vAddr
    let s4 := s3.tryPin vAddr
    [s1, s2, s3, s4, s4.checkPinningPhase adjust]
  else
    let s0 := if s.resident vAddr then s.invalidate vAddr else s
    let s1 := s0.recordMiss
    let s2 := if s1.isEmpty then s1 else s1.evict
    let s3 := s2.insert vAddr pAddr
    let s4 := s3.updateLRUCount vAddr
    let s5 := s4.increaseCount vAddr
    let s6 := s5.tryPin vAddr
    (if s.resident vAddr then s.invalidateSteps vAddr else []) ++ (s1 ::
      ((if s1.isEmpty then [] else s1.evictSteps) ++
        [s3, s4, s5, s6, s6.checkPinningPhase adjust]))

/-- Modelled from the spec: the body of `InnerCache::checkCacheLatency` is
missing.  Section 4.2: on exists-and-matches record a hit, refresh the LRU
sequence, increment the access count, attempt pin; otherwise invalidate a stale
entry, record a miss, evict if the store is full, insert, refresh, increment,
attempt pin; finally run the phase controller. -/
def InnerCache.checkCacheLatency (adjust : InnerCache → Nat) (s : InnerCache)
    (vAddr pAddr : Addr) : InnerCache :=
  if s.checkExistence vAddr pAddr then
    (((s.recordHit.updateLRUCount vAddr).increaseCount vAddr).tryPin vAddr).checkPinningPhase
      adjust
  else
    let s0 := if s.resident vAddr then s.invalidate vAddr else s
    let s1 := s0.recordMiss
    let s2 := if s1.isEmpty then s1 else s1.evict
    ((((s2.insert vAddr pAddr).updateLRUCount vAddr).increaseCount vAddr).tryPin
      vAddr).checkPinningPhase adjust

/-- The state after a sequence of `checkCacheLatency` calls. -/
def InnerCache.run (adjust : InnerCache → Nat) (s : InnerCache) :
    List (Addr × Addr) → InnerCache
  | [] => s
  | (v, p) :: ops => InnerCache.run adjust (s.checkCacheLatency adjust v p) ops

/-- Every state passed through by a sequence of `checkCacheLatency` calls: the
starting state and, for each call, the state after each of its steps. -/
def InnerCache.visited (adjust : InnerCache → Nat) (s : InnerCache) :
    List (Addr × Addr) → List InnerCache
  | [] => [s]
  | (v, p) :: ops =>
    s :: (s.checkCacheLatencySteps adjust v p ++
      InnerCache.visited adjust (s.checkCacheLatency adjust v p) ops)

/-! ## The invariants of the inner cache -/

/-- The capacity invariant carried along every call sequence, for a cache
configured with capacity `c` and pin capacity `m`: the configuration is
unchanged, the store has one entry per key and at most `c` entries, and at most
`m` addresses are pinned. -/
structure InnerCache.Inv (c m : Nat) (s : InnerCache) : Prop where
  cacheSize_eq : s.cacheSize = c
  maxPinned_eq : s.maxPinnedSize = m
  nodup : s.keys.Nodup
  size_le : s.cache.length ≤ c
  pinned_le : s.pinnedList.card ≤ m

end X86ISA

/-!
# The log tool (`src/Chipyard-Firesim/CacheReplacementPolicy/hit_rate.c`)

`main` reads records from a log, adds up their `hit` and `miss` fields in two
`int` variables and prints the totals with a hit rate computed in floating
point.  The model starts from the parsed records, the pairs `(hit, miss)`.

* `int` is a 32-bit two's complement integer; an addition that leaves its range
  wraps around.
* A finite `double` or `float` is the rational number it denotes.  An arithmetic
  operation returns the exact result rounded to the nearest value with 53
  (`double`) or 24 (`float`) significant bits, ties to the even significand.
  The quotient computed here is `0` or has magnitude between `100 / 2^31` and
  `100 * 2^31`, well inside the exponent range of both formats, so the exponent
  is not bounded in the model.
-/

namespace HitRate

/-- Reduction of an integer to the range of a 32-bit `int`. -/
def wrapInt (x : Int) : Int :=
  (x + 2 ^ 31) % 2 ^ 32 - 2 ^ 31

/-- The accumulation loop (lines 53-66) over the parsed records:
`hit_count += hit; miss_count += miss;` from `hit_count = miss_count = 0`
(lines 43-44).  The result is `(hit_count, miss_count)`. -/
def accumulate (records : List (Int × Int)) : Int × Int :=
  records.foldl (fun acc r => (wrapInt (acc.1 + r.1), wrapInt (acc.2 + r.2))) (0, 0)

/-- Integer binary logarithm by repeated halving, at most `fuel` times. -/
def log2Aux : Nat → Nat → Nat
  | 0, _ => 0
  | fuel + 1, n => if n < 2 then 0 else log2Aux fuel (n / 2) + 1

/-- The position of the leading bit of `n`: `2 ^ ilog2 n ≤ n < 2 ^ (ilog2 n + 1)`
for `n ≥ 1`. -/
def ilog2 (n : Nat) : Nat :=
  log2Aux n n

/-- The binary exponent of a nonzero rational: the `e` with
`2 ^ e ≤ |q| < 2 ^ (e + 1)`. -/
def expOf (q : ℚ) : Int :=
  if (2 : ℚ) ^ ((ilog2 q.num.natAbs : Int) - (ilog2 q.den : Int)) ≤ |q| then
    (ilog2 q.num.natAbs : Int) - (ilog2 q.den : Int)
  else (ilog2 q.num.natAbs : Int) - (ilog2 q.den : Int) - 1

/-- Rounding of a rational to the nearest integer, ties to even. -/
def roundNearestEven (x : ℚ) : Int :=
  if x - ⌊x⌋ < 1 / 2 then ⌊x⌋
  else if 1 / 2 < x - ⌊x⌋ then ⌊x⌋ + 1
  else if ⌊x⌋ % 2 = 0 then ⌊x⌋ else ⌊x⌋ + 1

/-- Rounding of a rational to the nearest binary floating-point value with `p`
significant bits, ties to even. -/
def roundToPrec (p : Nat) (q : ℚ) : ℚ :=
  if q = 0 then 0
  else
    (roundNearestEven (q / 2 ^ (expOf q - ((p : Int) - 1))) : ℚ) *
      2 ^ (expOf q - ((p : Int) - 1))

/-- Rounding to `double` (53 significant bits). -/
def toDouble (q : ℚ) : ℚ :=
  roundToPrec 53 q

/-- Rounding to `float` (24 significant bits). -/
def toFloat (q : ℚ) : ℚ :=
  roundToPrec 24 q

/-- The hit rate (line 69): `hit_rate = 100.0 * hit_count / (hit_count + miss_count);`
with `float hit_rate` (line 46).  The sum is an `int` addition; the product and
the quotient are `double` operations on the converted integers (a 32-bit `int`
converts exactly); the assignment rounds to `float`.  With a zero divisor the
result is an infinity or a NaN, not a number: `none`. -/
def hitRate (hit_count miss_count : Int) : Option ℚ :=
  if wrapInt (hit_count + miss_count) = 0 then none
  else
    some (toFloat (toDouble (toDouble (100 * (hit_count : ℚ)) /
      (wrapInt (hit_count + miss_count) : ℚ))))

/-- The three values `main` prints (line 71) for a sequence of parsed records:
total hit, total miss, hit rate. -/
def report (records : List (Int × Int)) : Int × Int × Option ℚ :=
  ((accumulate records).1, (accumulate records).2,
    hitRate (accumulate records).1 (accumulate records).2)

end HitRate

namespace X86ISA

/-! ## Lemmas on lists and on the association lists -/

theorem forall_mem_nil_of {α : Type} (P : α → Prop) : ∀ t ∈ ([] : List α), P t :=
  fun _ h => absurd h (List.not_mem_nil _)

theorem forall_mem_cons_of {α : Type} {P : α → Prop} {a : α} {l : List α} (ha : P a)
    (hl : ∀ t ∈ l, P t) : ∀ t ∈ a :: l, P t :=
  List.forall_mem_cons.mpr ⟨ha, hl⟩

theorem forall_mem_append_of {α : Type} {P : α → Prop} {l₁ l₂ : List α}
    (h₁ : ∀ t ∈ l₁, P t) (h₂ : ∀ t ∈ l₂, P t) : ∀ t ∈ l₁ ++ l₂, P t :=
  fun t ht => (List.mem_append.mp ht).elim (h₁ t) (h₂ t)

theorem mapErase_keys (m : List (Addr × Nat)) (k : Addr) :
    (mapErase m k).map Prod.fst = (m.map Prod.fst).filter (fun a => a != k) := by
  induction m with
  | nil => rfl
  | cons e m ih =>
    by_cases h : e.1 = k
    · simp_all [mapErase, List.filter_cons]
    · simp_all [mapErase, List.filter_cons]

theorem mapErase_length_le (m : List (Addr × Nat)) (k : Addr) :
    (mapErase m k).length ≤ m.length :=
  List.length_filter_le _ _

theorem mapErase_keys_nodup {m : List (Addr × Nat)} (k : Addr)
    (h : (m.map Prod.fst).Nodup) : ((mapErase m k).map Prod.fst).Nodup := by
  rw [mapErase_keys]
  exact h.filter _

theorem mapFind_isSome_iff (m : List (Addr × Nat)) (k : Addr) :
    (mapFind m k).isSome = true ↔ k ∈ m.map Prod.fst := by
  unfold mapFind
  rw [Option.isSome_map', List.find?_isSome]
  constructor
  · rintro ⟨e, he, hk⟩
    have : e.1 = k := by simpa using hk
    exact this ▸ List.mem_map_of_mem Prod.fst he
  · intro h
    obtain ⟨e, he, hk⟩ := List.mem_map.mp h
    exact ⟨e, he, by simp [hk]⟩

theorem InnerCache.resident_iff (s : InnerCache) (v : Addr) :
    s.resident v = true ↔ v ∈ s.keys :=
  mapFind_isSome_iff s.cache v

theorem InnerCache.Inv_init (c m p : Nat) (st : TlbStats) :
    (InnerCache.init c m p st).Inv c m :=
  ⟨rfl, rfl, List.nodup_nil, Nat.zero_le _, Nat.zero_le _⟩

theorem InnerCache.Inv_unpin {c m : Nat} {s : InnerCache} (h : s.Inv c m) (v : Addr) :
    (s.unpin v).Inv c m :=
  ⟨h.cacheSize_eq, h.maxPinned_eq, h.nodup, h.size_le,
    Nat.le_trans (Finset.card_erase_le) h.pinned_le⟩

theorem InnerCache.Inv_dropEntry {c m : Nat} {s : InnerCache} (h : s.Inv c m) (v : Addr) :
    (s.dropEntry v).Inv c m :=
  ⟨h.cacheSize_eq, h.maxPinned_eq, mapErase_keys_nodup v h.nodup,
    Nat.le_trans (mapErase_length_le _ _) h.size_le, h.pinned_le⟩

theorem InnerCache.Inv_invalidateSteps {c m : Nat} {s : InnerCache} (h : s.Inv c m)
    (v : Addr) : ∀ t ∈ s.invalidateSteps v, t.Inv c m := by
  unfold InnerCache.invalidateSteps
  split
  · exact forall_mem_cons_of (InnerCache.Inv_unpin h v) (forall_mem_cons_of
      (InnerCache.Inv_dropEntry (InnerCache.Inv_unpin h v) v) (forall_mem_nil_of _))
  · exact forall_mem_cons_of (InnerCache.Inv_dropEntry h v) (forall_mem_nil_of _)

theorem InnerCache.invalidate_mem_steps (s : InnerCache) (v : Addr) :
    s.invalidate v ∈ s.invalidateSteps v := by
  unfold InnerCache.invalidate InnerCache.invalidateSteps
  split
  · exact List.mem_cons_of_mem _ (List.mem_singleton.mpr rfl)
  · exact List.mem_singleton.mpr rfl

theorem InnerCache.Inv_invalidate {c m : Nat} {s : InnerCache} (h : s.Inv c m) (v : Addr) :
    (s.invalidate v).Inv c m :=
  InnerCache.Inv_invalidateSteps h v _ (InnerCache.invalidate_mem_steps s v)

theorem InnerCache.Inv_evictSteps {c m : Nat} {s : InnerCache} (h : s.Inv c m) :
    ∀ t ∈ s.evictSteps, t.Inv c m := by
  unfold InnerCache.evictSteps
  split
  · exact forall_mem_cons_of (InnerCache.Inv_dropEntry h _) (forall_mem_nil_of _)
  · split
    · exact forall_mem_cons_of (InnerCache.Inv_unpin h _) (forall_mem_cons_of
        (InnerCache.Inv_dropEntry (InnerCache.Inv_unpin h _) _) (forall_mem_nil_of _))
    · exact forall_mem_cons_of h (forall_mem_nil_of _)

theorem InnerCache.evict_mem_steps (s : InnerCache) : s.evict ∈ s.evictSteps := by
  unfold InnerCache.evict InnerCache.evictSteps
  split
  · exact List.mem_singleton.mpr rfl
  · split
    · exact List.mem_cons_of_mem _ (List.mem_singleton.mpr rfl)
    · exact List.mem_singleton.mpr rfl

theorem InnerCache.Inv_evict {c m : Nat} {s : InnerCache} (h : s.Inv c m) :
    s.evict.Inv c m :=
  InnerCache.Inv_evictSteps h _ (InnerCache.evict_mem_steps s)

theorem InnerCache.Inv_insert {c m : Nat} {s : InnerCache} (h : s.Inv c m) (v p : Addr) :
    (s.insert v p).Inv c m := by
  unfold InnerCache.insert
  split
  · rename_i hg
    simp only [Bool.and_eq_true, Bool.not_eq_true', InnerCache.isEmpty,
      decide_eq_true_eq] at hg
    obtain ⟨hlt, hres⟩ := hg
    have hnot : v ∉ s.keys := by
      intro hk
      rw [(InnerCache.resident_iff s v).mpr hk] at hres
      exact Bool.noConfusion hres
    refine ⟨h.cacheSize_eq, h.maxPinned_eq, ?_, ?_, h.pinned_le⟩
    · show (List.map Prod.fst (s.cache ++ [(v, p)])).Nodup
      rw [List.map_append, List.map_singleton]
      exact List.Nodup.append h.nodup (List.nodup_singleton v)
        (fun a ha hb => hnot (by
          have e : a = v := List.mem_singleton.mp hb
          rw [← e]
          exact ha))
    · show (s.cache ++ [(v, p)]).length ≤ c
      rw [List.length_append, List.length_singleton, ← h.cacheSize_eq]
      exact hlt
  · exact h

theorem InnerCache.Inv_updateLRUCount {c m : Nat} {s : InnerCache} (h : s.Inv c m)
    (v : Addr) : (s.updateLRUCount v).Inv c m :=
  ⟨h.cacheSize_eq, h.maxPinned_eq, h.nodup, h.size_le, h.pinned_le⟩

theorem InnerCache.Inv_increaseCount {c m : Nat} {s : InnerCache} (h : s.Inv c m)
    (v : Addr) : (s.increaseCount v).Inv c m := by
  unfold InnerCache.increaseCount
  split
  · exact ⟨h.cacheSize_eq, h.maxPinned_eq, h.nodup, h.size_le, h.pinned_le⟩
  · exact h

theorem InnerCache.Inv_recordHit {c m : Nat} {s : InnerCache} (h : s.Inv c m) :
    s.recordHit.Inv c m :=
  ⟨h.cacheSize_eq, h.maxPinned_eq, h.nodup, h.size_le, h.pinned_le⟩

theorem InnerCache.Inv_recordMiss {c m : Nat} {s : InnerCache} (h : s.Inv c m) :
    s.recordMiss.Inv c m :=
  ⟨h.cacheSize_eq, h.maxPinned_eq, h.nodup, h.size_le, h.pinned_le⟩

theorem InnerCache.Inv_checkPinningPhase {c m : Nat} {s : InnerCache} (h : s.Inv c m)
    (adjust : InnerCache → Nat) : (s.checkPinningPhase adjust).Inv c m :=
  ⟨h.cacheSize_eq, h.maxPinned_eq, h.nodup, h.size_le, h.pinned_le⟩

theorem InnerCache.Inv_tryPin {c m : Nat} {s : InnerCache} (h : s.Inv c m) (v : Addr) :
    (s.tryPin v).Inv c m := by
  unfold InnerCache.tryPin
  split
  · exact h
  · rename_i hnp
    split
    · exact h
    · rename_i hroom
      split
      · simp only [InnerCache.checkPin, decide_eq_true_eq] at hnp
        simp only [InnerCache.isPinningEmpty, Bool.not_eq_true', decide_eq_false_iff_not,
          not_not] at hroom
        refine ⟨h.cacheSize_eq, h.maxPinned_eq, h.nodup, h.size_le, ?_⟩
        show (Insert.insert v s.pinnedList).card ≤ m
        rw [Finset.card_insert_of_not_mem hnp, ← h.maxPinned_eq]
        exact hroom
      · exact h

theorem InnerCache.Inv_steps {c m : Nat} {s : InnerCache} (h : s.Inv c m)
    (adjust : InnerCache → Nat) (v p : Addr) :
    ∀ t ∈ s.checkCacheLatencySteps adjust v p, t.Inv c m := by
  have pre : (if s.resident v then s.invalidate v else s).Inv c m := by
    split
    · exact InnerCache.Inv_invalidate h v
    · exact h
  have preS : ∀ t ∈ (if s.resident v then s.invalidateSteps v else []), t.Inv c m := by
    split
    · exact InnerCache.Inv_invalidateSteps h v
    · exact forall_mem_nil_of _
  have ev : ∀ u : InnerCache, u.Inv c m → (if u.isEmpty then u else u.evict).Inv c m := by
    intro u hu
    split
    · exact hu
    · exact InnerCache.Inv_evict hu
  have evS : ∀ u : InnerCache, u.Inv c m →
      ∀ t ∈ (if u.isEmpty then [] else u.evictSteps), t.Inv c m := by
    intro u hu
    split
    · exact forall_mem_nil_of _
    · exact InnerCache.Inv_evictSteps hu
  unfold InnerCache.checkCacheLatencySteps
  split
  · have h1 := InnerCache.Inv_recordHit h
    have h2 := InnerCache.Inv_updateLRUCount h1 v
    have h3 := InnerCache.Inv_increaseCount h2 v
    have h4 := InnerCache.Inv_tryPin h3 v
    have h5 := InnerCache.Inv_checkPinningPhase h4 adjust
    exact forall_mem_cons_of h1 (forall_mem_cons_of h2 (forall_mem_cons_of h3
      (forall_mem_cons_of h4 (forall_mem_cons_of h5 (forall_mem_nil_of _)))))
  · have h1 := InnerCache.Inv_recordMiss pre
    have h2 := ev _ h1
    have h3 := InnerCache.Inv_insert h2 v p
    have h4 := InnerCache.Inv_updateLRUCount h3 v
    have h5 := InnerCache.Inv_increaseCount h4 v
    have h6 := InnerCache.Inv_tryPin h5 v
    have h7 := InnerCache.Inv_checkPinningPhase h6 adjust
    exact forall_mem_append_of preS (forall_mem_cons_of h1 (forall_mem_append_of (evS _ h1)
      (forall_mem_cons_of h3 (forall_mem_cons_of h4 (forall_mem_cons_of h5
        (forall_mem_cons_of h6 (forall_mem_cons_of h7 (forall_mem_nil_of _))))))))

theorem InnerCache.checkCacheLatency_mem_steps (adjust : InnerCache → Nat) (s : InnerCache)
    (v p : Addr) : s.checkCacheLatency adjust v p ∈ s.checkCacheLatencySteps adjust v p := by
  unfold InnerCache.checkCacheLatency InnerCache.checkCacheLatencySteps
  split
  · exact List.mem_cons_of_mem _ (List.mem_cons_of_mem _ (List.mem_cons_of_mem _
      (List.mem_cons_of_mem _ (List.mem_singleton.mpr rfl))))
  · exact List.mem_append_right _ (List.mem_cons_of_mem _ (List.mem_append_right _
      (List.mem_cons_of_mem _ (List.mem_cons_of_mem _ (List.mem_cons_of_mem _
        (List.mem_cons_of_mem _ (List.mem_singleton.mpr rfl)))))))

theorem InnerCache.checkCacheLatency_eq_getLast (adjust : InnerCache → Nat) (s : InnerCache)
    (v p : Addr) :
    (s.checkCacheLatencySteps adjust v p).getLast? = some (s.checkCacheLatency adjust v p) := by
  unfold InnerCache.checkCacheLatency InnerCache.checkCacheLatencySteps
  split
  · rfl
  · rw [List.getLast?_append, List.getLast?_cons, List.getLast?_append]
    rfl

theorem InnerCache.Inv_checkCacheLatency {c m : Nat} {s : InnerCache} (h : s.Inv c m)
    (adjust : InnerCache → Nat) (v p : Addr) : (s.checkCacheLatency adjust v p).Inv c m :=
  InnerCache.Inv_steps h adjust v p _ (InnerCache.checkCacheLatency_mem_steps adjust s v p)

theorem InnerCache.Inv_run {c m : Nat} (adjust : InnerCache → Nat) :
    ∀ (ops : List (Addr × Addr)) (s : InnerCache), s.Inv c m →
      (InnerCache.run adjust s ops).Inv c m := by
  intro ops
  induction ops with
  | nil => intro s h; exact h
  | cons op ops ih =>
    intro s h
    exact ih _ (InnerCache.Inv_checkCacheLatency h adjust op.1 op.2)

/-- The model reproduces the scenario the specification gives for
`cacheSize = 2`, `maxPinnedSize = 1`, `pinThreshold = 3`: after observing
`(1,100), (2,200), (1,100), (1,100), (3,300)` the store holds addresses 1 and 3,
address 1 is pinned, and the counters read 5 accesses, 3 misses, 1 pinned. -/
theorem scenario_two_one_three :
    let s := InnerCache.run (fun s => s.pinThreshold) (InnerCache.init 2 1 3 ⟨0, 0, 0⟩)
      [(1, 100), (2, 200), (1, 100), (1, 100), (3, 300)]
    s.cache = [(1, 100), (3, 300)] ∧ s.pinnedList = {1} ∧ s.stats = ⟨5, 3, 1⟩ := by
  decide

/-- The visited states include the states inside `invalidate` and `evict`: with
`cacheSize = maxPinnedSize = pinThreshold = 1`, address 7 is pinned by the first
call; a second call that remaps it passes through the state in which 7 is
unpinned and still resident, and so does a second call that observes another
address and forces the eviction of 7. -/
theorem visited_inside_invalidate_and_evict :
    ((InnerCache.run (fun s => s.pinThreshold) (InnerCache.init 1 1 1 ⟨0, 0, 0⟩)
          [(7, 100)]).unpin 7 ∈
        InnerCache.visited (fun s => s.pinThreshold) (InnerCache.init 1 1 1 ⟨0, 0, 0⟩)
          [(7, 100), (7, 200)]) ∧
      ((InnerCache.run (fun s => s.pinThreshold) (InnerCache.init 1 1 1 ⟨0, 0, 0⟩)
          [(7, 100)]).recordMiss.unpin 7 ∈
        InnerCache.visited (fun s => s.pinThreshold) (InnerCache.init 1 1 1 ⟨0, 0, 0⟩)
          [(7, 100), (8, 100)]) := by
  decide

/-! ## The claims on the inner cache -/

/-- C1 (as stated, refuted): with `cacheSize = 1` and `maxPinnedSize = 2`, so
that `maxPinnedSize > cacheSize`, the constructor does not fail: it yields a
cache object. -/
theorem construct_accepts_oversized_pin_capacity :
    2 > 1 ∧
      InnerCache.construct 1 2 0 ⟨0, 0, 0⟩ = Except.ok (InnerCache.init 1 2 0 ⟨0, 0, 0⟩) ∧
      ¬ ∃ e, InnerCache.construct 1 2 0 ⟨0, 0, 0⟩ = Except.error e := by
  refine ⟨by decide, rfl, ?_⟩
  rintro ⟨e, he⟩
  exact Except.noConfusion he

/-- C1 (amended): the constructor validates nothing.  For every `cacheSize`,
`maxPinnedSize`, `pinThreshold` and stats handle, in particular when
`maxPinnedSize > cacheSize`, it reports no configuration error and yields a
cache object that stores the three parameters unchanged. -/
theorem construct_never_rejects (cacheSize maxPinnedSize pinThreshold : Nat)
    (stats : TlbStats) :
    (∀ e, InnerCache.construct cacheSize maxPinnedSize pinThreshold stats ≠ Except.error e) ∧
      ∃ s, InnerCache.construct cacheSize maxPinnedSize pinThreshold stats = Except.ok s ∧
        s.cacheSize = cacheSize ∧ s.maxPinnedSize = maxPinnedSize ∧
        s.pinThreshold = pinThreshold :=
  ⟨fun _ he => Except.noConfusion he, _, rfl, rfl, rfl, rfl⟩

/-- C2: capacity invariant.  After every sequence of `checkCacheLatency` calls
on a freshly constructed cache, whatever the phase strategy, the store has at
most `cacheSize` entries (one per key) and at most `maxPinnedSize` addresses are
pinned; the two capacities are still the constructed ones. -/
theorem capacity_invariant (cacheSize maxPinnedSize pinThreshold : Nat) (stats : TlbStats)
    (adjust : InnerCache → Nat) (ops : List (Addr × Addr)) :
    let s := InnerCache.run adjust
      (InnerCache.init cacheSize maxPinnedSize pinThreshold stats) ops
    s.cache.length ≤ s.cacheSize ∧ s.pinnedList.card ≤ s.maxPinnedSize ∧
      s.cacheSize = cacheSize ∧ s.maxPinnedSize = maxPinnedSize ∧ s.keys.Nodup := by
  intro s
  have h : s.Inv cacheSize maxPinnedSize :=
    InnerCache.Inv_run adjust ops _ (InnerCache.Inv_init _ _ _ _)
  exact ⟨h.cacheSize_eq.symm ▸ h.size_le, h.maxPinned_eq.symm ▸ h.pinned_le,
    h.cacheSize_eq, h.maxPinned_eq, h.nodup⟩

/-- C4 (as stated, refuted): at the largest 64-bit value the increment wraps, and
`nextSeq` returns `0`, which is not greater than the counter before the call. -/
theorem nextSeq_wraps_at_max :
    (TLB.nextSeq ⟨2 ^ 64 - 1⟩).1 = 0 ∧
      ¬ (TLB.lruSeq ⟨2 ^ 64 - 1⟩ < (TLB.nextSeq ⟨2 ^ 64 - 1⟩).1) := by
  decide

/-- C4 (amended): for every value of the 64-bit counter other than `2^64 - 1`,
`nextSeq` returns `lruSeq + 1`, strictly greater than the counter before the
call, and stores the returned value as the new counter; and when also
`lruSeq + 2 < 2^64`, the next call returns a strictly greater number again. -/
theorem nextSeq_increasing_below_max (t : TLB) (h : t.lruSeq + 1 < U64) :
    t.nextSeq.1 = t.lruSeq + 1 ∧ t.lruSeq < t.nextSeq.1 ∧
      t.nextSeq.2.lruSeq = t.nextSeq.1 ∧
      (t.lruSeq + 2 < U64 → t.nextSeq.1 < t.nextSeq.2.nextSeq.1) := by
  have e1 : t.nextSeq.1 = t.lruSeq + 1 := Nat.mod_eq_of_lt h
  have e2 : t.nextSeq.2.lruSeq = t.nextSeq.1 := rfl
  refine ⟨e1, by omega, e2, fun h2 => ?_⟩
  have e3 : t.nextSeq.2.nextSeq.1 = t.nextSeq.2.lruSeq + 1 :=
    Nat.mod_eq_of_lt (by rw [e2, e1]; exact h2)
  omega

theorem nextSeq_increasing_below_max_witness :
    (5 : Nat) + 1 < U64 ∧ (TLB.nextSeq ⟨5⟩).1 = 6 ∧ 5 < (TLB.nextSeq ⟨5⟩).1 ∧
      (TLB.nextSeq ⟨5⟩).2.lruSeq = 6 ∧
      (TLB.nextSeq ⟨5⟩).1 < (TLB.nextSeq (TLB.nextSeq ⟨5⟩).2).1 := by
  have h : (5 : Nat) + 1 < U64 := by decide
  have h2 : (5 : Nat) + 2 < U64 := by decide
  have w := nextSeq_increasing_below_max ⟨5⟩ h
  exact ⟨h, w.1, w.2.1, w.2.2.1, w.2.2.2 h2⟩

/-- C5: on a 64-bit page address whose low 12 bits are zero and a PCID below
`2^12`, `concAddrPcid` is concatenation: the result is `vpn + pcid`, still a
64-bit value, its low 12 bits are `pcid`, clearing its low 12 bits gives `vpn`,
and two such pairs with the same result are equal. -/
theorem concAddrPcid_concatenates (vpn pcid : Nat) (hv : vpn < U64)
    (hlow : vpn % 2 ^ 12 = 0) (hp : pcid < 2 ^ 12) :
    TLB.concAddrPcid vpn pcid = (vpn + pcid : Nat) ∧
      TLB.concAddrPcid vpn pcid < U64 ∧
      TLB.concAddrPcid vpn pcid % 2 ^ 12 = pcid ∧
      TLB.concAddrPcid vpn pcid &&& (2 ^ 12 - 1) = pcid ∧
      (TLB.concAddrPcid vpn pcid >>> 12) <<< 12 = (vpn : Nat) ∧
      ∀ vpn2 pcid2 : Nat, vpn2 < U64 → vpn2 % 2 ^ 12 = 0 → pcid2 < 2 ^ 12 →
        TLB.concAddrPcid vpn pcid = TLB.concAddrPcid vpn2 pcid2 →
        vpn = vpn2 ∧ pcid = pcid2 := by
  have key : ∀ a b : Nat, a % 2 ^ 12 = 0 → b < 2 ^ 12 → TLB.concAddrPcid a b = (a + b : Nat) := by
    intro a b ha hb
    have hm : a = 2 ^ 12 * (a / 2 ^ 12) := by
      have := Nat.div_add_mod a (2 ^ 12)
      omega
    unfold TLB.concAddrPcid
    rw [hm]
    exact (Nat.mul_add_lt_is_or hb _).symm
  have e := key vpn pcid hlow hp
  have hlt : TLB.concAddrPcid vpn pcid < U64 :=
    Nat.or_lt_two_pow hv (Nat.lt_of_lt_of_le hp (by decide))
  have hmod : (vpn + pcid) % 2 ^ 12 = pcid := by omega
  refine ⟨e, hlt, by rw [e]; exact hmod, ?_, ?_, ?_⟩
  · rw [Nat.and_pow_two_sub_one_eq_mod, e]
    exact hmod
  · rw [e, Nat.shiftRight_eq_div_pow, Nat.shiftLeft_eq]
    show ((vpn + pcid) / 2 ^ 12 * 2 ^ 12 : Nat) = vpn
    omega
  · intro vpn2 pcid2 _ hlow2 hp2 heq
    rw [e, key vpn2 pcid2 hlow2 hp2] at heq
    have heq2 : (vpn + pcid : Nat) = vpn2 + pcid2 := heq
    omega

theorem concAddrPcid_concatenates_witness :
    TLB.concAddrPcid 0x7f000 0x2a = 0x7f02a ∧ TLB.concAddrPcid 0x7f000 0x2a % 2 ^ 12 = 0x2a ∧
      (TLB.concAddrPcid 0x7f000 0x2a >>> 12) <<< 12 = 0x7f000 := by
  have w := concAddrPcid_concatenates 0x7f000 0x2a (by decide) (by decide) (by decide)
  exact ⟨w.1, w.2.2.1, w.2.2.2.2.1⟩

/-- C6: `isEmpty` reports free space exactly.  In every state it returns true
iff the store has fewer than `cacheSize` entries; in a state within capacity it
returns false exactly when the store is at capacity; with `cacheSize = 0` it
returns false. -/
theorem isEmpty_iff_room (s : InnerCache) :
    (s.isEmpty = true ↔ s.cache.length < s.cacheSize) ∧
      (s.cache.length ≤ s.cacheSize → (s.isEmpty = false ↔ s.cache.length = s.cacheSize)) ∧
      (s.cacheSize = 0 → s.isEmpty = false) := by
  unfold InnerCache.isEmpty
  refine ⟨decide_eq_true_iff, fun hle => ?_, fun h0 => ?_⟩
  · rw [decide_eq_false_iff_not]
    omega
  · rw [decide_eq_false_iff_not]
    omega

/-- C7: `isPinningEmpty` reports pin capacity exactly.  In every state it returns
true iff fewer than `maxPinnedSize` addresses are pinned; in a state within pin
capacity it returns false exactly when the pin set is at `maxPinnedSize`. -/
theorem isPinningEmpty_iff_room (s : InnerCache) :
    (s.isPinningEmpty = true ↔ s.pinnedList.card < s.maxPinnedSize) ∧
      (s.pinnedList.card ≤ s.maxPinnedSize →
        (s.isPinningEmpty = false ↔ s.pinnedList.card = s.maxPinnedSize)) := by
  unfold InnerCache.isPinningEmpty
  refine ⟨decide_eq_true_iff, fun hle => ?_⟩
  rw [decide_eq_false_iff_not]
  omega

/-- C8: `checkPin` is a total query that preserves the state.  For every state
and every address, resident or not, it returns true iff the address is in the
pin set, and the state after the call is the state before it, so the store, the
pin set, the access history and the LRU table are unchanged. -/
theorem checkPin_total_query (s : InnerCache) (vAddr : Addr) :
    ((s.checkPin vAddr).1 = true ↔ vAddr ∈ s.pinnedList) ∧
      (s.checkPin vAddr).2 = s ∧
      (s.checkPin vAddr).2.cache = s.cache ∧
      (s.checkPin vAddr).2.pinnedList = s.pinnedList ∧
      (s.checkPin vAddr).2.accessHistory = s.accessHistory ∧
      (s.checkPin vAddr).2.lruTable = s.lruTable :=
  ⟨decide_eq_true_iff, rfl, rfl, rfl, rfl, rfl⟩

/-- C10: the freshly constructed cache is a valid empty state.  The constructor
succeeds for every configuration; the state stores the three parameters
unchanged, has `currentLRUSeq = 0` and four empty containers; hence it is within
both capacities, its pin set is inside the store, `checkPin` is false for every
address, and `isEmpty` / `isPinningEmpty` hold exactly when `cacheSize > 0` /
`maxPinnedSize > 0`. -/
theorem construct_valid_empty (cacheSize maxPinnedSize pinThreshold : Nat)
    (stats : TlbStats) :
    ∃ s, InnerCache.construct cacheSize maxPinnedSize pinThreshold stats = Except.ok s ∧
      s.cacheSize = cacheSize ∧ s.maxPinnedSize = maxPinnedSize ∧
      s.pinThreshold = pinThreshold ∧ s.currentLRUSeq = 0 ∧
      s.cache = [] ∧ s.pinnedList = ∅ ∧ s.accessHistory = [] ∧ s.lruTable = [] ∧
      s.cache.length ≤ s.cacheSize ∧ s.pinnedList.card ≤ s.maxPinnedSize ∧
      (∀ a ∈ s.pinnedList, a ∈ s.keys) ∧
      (∀ a, (s.checkPin a).1 = false) ∧
      (s.isEmpty = true ↔ 0 < cacheSize) ∧
      (s.isPinningEmpty = true ↔ 0 < maxPinnedSize) := by
  refine ⟨InnerCache.init cacheSize maxPinnedSize pinThreshold stats, rfl, rfl, rfl, rfl, rfl,
    rfl, rfl, rfl, rfl, Nat.zero_le _, Nat.zero_le _, ?_, ?_, ?_, ?_⟩
  · intro a ha
    simp [InnerCache.init] at ha
  · intro a
    simp [InnerCache.checkPin, InnerCache.init]
  · simp [InnerCache.isEmpty, InnerCache.init]
  · simp [InnerCache.isPinningEmpty, InnerCache.init]

end X86ISA

namespace HitRate

/-! ## The accumulation loop -/

theorem wrapInt_add_wrapInt (a b : Int) : wrapInt (wrapInt a + b) = wrapInt (a + b) := by
  unfold wrapInt
  omega

theorem wrapInt_of_fits {x : Int} (h₁ : -2 ^ 31 ≤ x) (h₂ : x < 2 ^ 31) : wrapInt x = x := by
  unfold wrapInt
  omega

theorem foldl_accumulate (records : List (Int × Int)) :
    ∀ a b : Int,
      records.foldl (fun acc r => (wrapInt (acc.1 + r.1), wrapInt (acc.2 + r.2)))
          (wrapInt a, wrapInt b) =
        (wrapInt (a + (records.map Prod.fst).sum), wrapInt (b + (records.map Prod.snd).sum)) := by
  induction records with
  | nil => intro a b; simp
  | cons r rs ih =>
    intro a b
    simp only [List.foldl_cons, List.map_cons, List.sum_cons]
    rw [wrapInt_add_wrapInt, wrapInt_add_wrapInt, ih]
    simp only [add_assoc]

theorem accumulate_eq (records : List (Int × Int)) :
    accumulate records =
      (wrapInt (records.map Prod.fst).sum, wrapInt (records.map Prod.snd).sum) := by
  have h := foldl_accumulate records 0 0
  have h0 : wrapInt 0 = 0 := by decide
  rw [h0] at h
  simpa [accumulate] using h

theorem sum_nonneg_of_forall {l : List Int} (h : ∀ x ∈ l, 0 ≤ x) : 0 ≤ l.sum := by
  induction l with
  | nil => simp
  | cons x xs ih =>
    rw [List.sum_cons]
    have h1 := h x (List.mem_cons_self x xs)
    have h2 := ih (fun y hy => h y (List.mem_cons_of_mem x hy))
    omega

/-! ## The binary exponent -/

theorem log2Aux_spec : ∀ (fuel n : Nat), 0 < n → n ≤ fuel →
    2 ^ log2Aux fuel n ≤ n ∧ n < 2 ^ (log2Aux fuel n + 1) := by
  intro fuel
  induction fuel with
  | zero => intro n h1 h2; omega
  | succ f ih =>
    intro n h1 h2
    unfold log2Aux
    split
    · constructor
      · simpa using h1
      · simpa using (by omega : n < 2)
    · have h3 := ih (n / 2) (by omega) (by omega)
      have e1 : 2 ^ (log2Aux f (n / 2) + 1) = 2 * 2 ^ log2Aux f (n / 2) := by
        rw [pow_succ]; ring
      have e2 : 2 ^ (log2Aux f (n / 2) + 1 + 1) = 2 * 2 ^ (log2Aux f (n / 2) + 1) := by
        rw [pow_succ]; ring
      rw [e2, e1]
      rw [e1] at h3
      constructor <;> omega

theorem ilog2_le {n : Nat} (h : 0 < n) : 2 ^ ilog2 n ≤ n :=
  (log2Aux_spec n n h (Nat.le_refl n)).1

theorem lt_ilog2 {n : Nat} (h : 0 < n) : n < 2 ^ (ilog2 n + 1) :=
  (log2Aux_spec n n h (Nat.le_refl n)).2

/-! ## Rounding to the nearest integer -/

theorem roundNearestEven_cases (x : ℚ) :
    (roundNearestEven x = ⌊x⌋ ∧ x - ⌊x⌋ ≤ 1 / 2) ∨
      (roundNearestEven x = ⌊x⌋ + 1 ∧ 1 / 2 ≤ x - ⌊x⌋) := by
  unfold roundNearestEven
  split_ifs with h1 h2 h3
  · exact Or.inl ⟨rfl, le_of_lt h1⟩
  · exact Or.inr ⟨rfl, le_of_lt h2⟩
  · exact Or.inl ⟨rfl, not_lt.mp h2⟩
  · exact Or.inr ⟨rfl, not_lt.mp h1⟩

theorem abs_roundNearestEven_sub_le (x : ℚ) : |(roundNearestEven x : ℚ) - x| ≤ 1 / 2 := by
  have h1 := Int.floor_le x
  have h2 := Int.lt_floor_add_one x
  rw [abs_le]
  rcases roundNearestEven_cases x with ⟨e, h⟩ | ⟨e, h⟩
  · rw [e]
    constructor <;> linarith
  · rw [e]
    push_cast
    constructor <;> linarith

theorem roundNearestEven_le {x : ℚ} {N : Int} (h : x ≤ N) : roundNearestEven x ≤ N := by
  have h1 := Int.floor_le x
  rcases roundNearestEven_cases x with ⟨e, _⟩ | ⟨e, hf⟩
  · rw [e]
    exact Int.cast_le.mp (le_trans h1 h)
  · rw [e]
    have : ((⌊x⌋ : Int) : ℚ) < N := by linarith
    have := Int.cast_lt.mp this
    omega

theorem roundNearestEven_nonneg {x : ℚ} (h : 0 ≤ x) : 0 ≤ roundNearestEven x := by
  have h1 : 0 ≤ ⌊x⌋ := Int.floor_nonneg.mpr h
  rcases roundNearestEven_cases x with ⟨e, _⟩ | ⟨e, _⟩ <;> rw [e] <;> omega

theorem roundNearestEven_intCast (n : Int) : roundNearestEven (n : ℚ) = n := by
  unfold roundNearestEven
  simp

/-! ## The binary exponent of a rational -/

theorem abs_eq_natAbs_div_den (q : ℚ) : |q| = (q.num.natAbs : ℚ) / (q.den : ℚ) := by
  have h1 : (0 : ℚ) < q.den := by exact_mod_cast q.den_pos
  have h2 : ((q.num.natAbs : ℕ) : ℚ) = |(q.num : ℚ)| := by
    rw [Nat.cast_natAbs, Int.cast_abs]
  conv_lhs => rw [← Rat.num_div_den q]
  rw [abs_div, abs_of_pos h1, h2]

theorem two_zpow_expOf_le {q : ℚ} (hq : q ≠ 0) : (2 : ℚ) ^ expOf q ≤ |q| := by
  unfold expOf
  split
  · assumption
  · have hn : 0 < q.num.natAbs := Int.natAbs_pos.mpr (Rat.num_ne_zero.mpr hq)
    have hd : 0 < q.den := q.den_pos
    have h1 : ((2 : ℚ) ^ ilog2 q.num.natAbs) ≤ (q.num.natAbs : ℚ) := by
      exact_mod_cast ilog2_le hn
    have h2 : (q.den : ℚ) < (2 : ℚ) ^ (ilog2 q.den + 1) := by
      exact_mod_cast lt_ilog2 hd
    have hd' : (0 : ℚ) < q.den := by exact_mod_cast hd
    rw [abs_eq_natAbs_div_den q]
    have e : (2 : ℚ) ^ ((ilog2 q.num.natAbs : Int) - (ilog2 q.den : Int) - 1) =
        (2 : ℚ) ^ ilog2 q.num.natAbs / (2 : ℚ) ^ (ilog2 q.den + 1) := by
      rw [show ((ilog2 q.num.natAbs : Int) - (ilog2 q.den : Int) - 1) =
        (ilog2 q.num.natAbs : Int) - ((ilog2 q.den + 1 : ℕ) : Int) by push_cast; ring]
      rw [zpow_sub₀ (by norm_num : (2 : ℚ) ≠ 0), zpow_natCast, zpow_natCast]
    rw [e]
    have hpos : (0 : ℚ) < (2 : ℚ) ^ (ilog2 q.den + 1) := by positivity
    rw [div_le_div_iff₀ hpos hd']
    have h3 : (0 : ℚ) ≤ (2 : ℚ) ^ ilog2 q.num.natAbs := by positivity
    have h4 : (0 : ℚ) ≤ (q.den : ℚ) := le_of_lt hd'
    nlinarith

theorem expOf_lt_of_abs_lt {q : ℚ} (hq : q ≠ 0) {p : Nat} (h : |q| < (2 : ℚ) ^ p) :
    expOf q < (p : Int) := by
  have h1 := two_zpow_expOf_le hq
  have h2 : (2 : ℚ) ^ expOf q < (2 : ℚ) ^ (p : Int) := by
    rw [zpow_natCast]
    exact lt_of_le_of_lt h1 h
  exact (zpow_lt_zpow_iff_right₀ (by norm_num : (1 : ℚ) < 2)).mp h2

/-! ## Rounding to a binary floating-point format -/

theorem scale_eq (e : Int) (p : Nat) :
    (2 : ℚ) ^ (e - ((p : Int) - 1)) = 2 * (2 : ℚ) ^ e / (2 : ℚ) ^ p := by
  have h2 : (2 : ℚ) ≠ 0 := by norm_num
  rw [zpow_sub₀ h2, zpow_sub₀ h2, zpow_one, zpow_natCast]
  field_simp
  ring

theorem scale_eq_inv_pow {q : ℚ} (hq : q ≠ 0) {p : Nat} (h : |q| < (2 : ℚ) ^ p) :
    ∃ n : Nat, (2 : ℚ) ^ (expOf q - ((p : Int) - 1)) = ((2 : ℚ) ^ n)⁻¹ := by
  have h1 := expOf_lt_of_abs_lt hq h
  refine ⟨(-(expOf q - ((p : Int) - 1))).toNat, ?_⟩
  rw [← zpow_natCast, ← zpow_neg]
  congr 1
  omega

theorem roundToPrec_zero (p : Nat) : roundToPrec p 0 = 0 := by
  simp [roundToPrec]

theorem abs_roundToPrec_sub_le (p : Nat) (q : ℚ) :
    |roundToPrec p q - q| ≤ |q| / (2 : ℚ) ^ p := by
  by_cases hq : q = 0
  · rw [hq, roundToPrec_zero]
    simp
  · unfold roundToPrec
    rw [if_neg hq]
    have ht : (0 : ℚ) < (2 : ℚ) ^ (expOf q - ((p : Int) - 1)) := by positivity
    have hk := abs_roundNearestEven_sub_le (q / (2 : ℚ) ^ (expOf q - ((p : Int) - 1)))
    have hexp := two_zpow_expOf_le hq
    have hs := scale_eq (expOf q) p
    generalize (2 : ℚ) ^ (expOf q - ((p : Int) - 1)) = t at ht hk hs ⊢
    generalize (roundNearestEven (q / t) : ℚ) = k at hk ⊢
    have e1 : k * t - q = (k - q / t) * t := by field_simp
    rw [e1, abs_mul, abs_of_pos ht]
    have hp : (0 : ℚ) < (2 : ℚ) ^ p := by positivity
    have h3 : |k - q / t| * t ≤ 1 / 2 * t := mul_le_mul_of_nonneg_right hk (le_of_lt ht)
    have h4 : 1 / 2 * t = (2 : ℚ) ^ expOf q / (2 : ℚ) ^ p := by
      rw [hs]; ring
    have h5 : (2 : ℚ) ^ expOf q / (2 : ℚ) ^ p ≤ |q| / (2 : ℚ) ^ p :=
      div_le_div_of_nonneg_right hexp (le_of_lt hp)
    linarith

theorem roundToPrec_nonneg (p : Nat) {q : ℚ} (hq : 0 ≤ q) : 0 ≤ roundToPrec p q := by
  unfold roundToPrec
  split
  · exact le_refl 0
  · have ht : (0 : ℚ) < (2 : ℚ) ^ (expOf q - ((p : Int) - 1)) := by positivity
    have hk : 0 ≤ roundNearestEven (q / (2 : ℚ) ^ (expOf q - ((p : Int) - 1))) :=
      roundNearestEven_nonneg (div_nonneg hq (le_of_lt ht))
    have hk2 : (0 : ℚ) ≤ (roundNearestEven (q / (2 : ℚ) ^ (expOf q - ((p : Int) - 1))) : ℚ) := by
      exact_mod_cast hk
    exact mul_nonneg hk2 (le_of_lt ht)

theorem roundToPrec_le_natCast (p : Nat) {q : ℚ} (hq : 0 ≤ q) {B : Nat} (hqB : q ≤ B)
    (hB : (B : ℚ) < (2 : ℚ) ^ p) : roundToPrec p q ≤ B := by
  rcases eq_or_lt_of_le hq with h0 | hpos
  · rw [← h0, roundToPrec_zero]
    exact Nat.cast_nonneg B
  · obtain ⟨n, hn⟩ := scale_eq_inv_pow (ne_of_gt hpos)
      (by rw [abs_of_pos hpos]; exact lt_of_le_of_lt hqB hB)
    unfold roundToPrec
    rw [if_neg (ne_of_gt hpos), hn]
    have hp : (0 : ℚ) < (2 : ℚ) ^ n := by positivity
    have h1 : q / ((2 : ℚ) ^ n)⁻¹ ≤ ((B * 2 ^ n : Int) : ℚ) := by
      rw [div_inv_eq_mul]
      push_cast
      exact mul_le_mul_of_nonneg_right hqB (le_of_lt hp)
    have h2 := roundNearestEven_le h1
    have h3 : (roundNearestEven (q / ((2 : ℚ) ^ n)⁻¹) : ℚ) ≤ (B : ℚ) * (2 : ℚ) ^ n := by
      exact_mod_cast h2
    calc (roundNearestEven (q / ((2 : ℚ) ^ n)⁻¹) : ℚ) * ((2 : ℚ) ^ n)⁻¹
        ≤ (B : ℚ) * (2 : ℚ) ^ n * ((2 : ℚ) ^ n)⁻¹ :=
          mul_le_mul_of_nonneg_right h3 (le_of_lt (inv_pos.mpr hp))
      _ = B := by field_simp

theorem roundToPrec_intCast (p : Nat) (z : Int) (hz : |(z : ℚ)| < (2 : ℚ) ^ p) :
    roundToPrec p z = z := by
  by_cases h0 : (z : ℚ) = 0
  · rw [h0, roundToPrec_zero]
  · obtain ⟨m, hm⟩ := scale_eq_inv_pow h0 hz
    unfold roundToPrec
    rw [if_neg h0, hm]
    have hp : (0 : ℚ) < (2 : ℚ) ^ m := by positivity
    have h1 : (z : ℚ) / ((2 : ℚ) ^ m)⁻¹ = ((z * 2 ^ m : Int) : ℚ) := by
      rw [div_inv_eq_mul]
      push_cast
      ring
    rw [h1, roundNearestEven_intCast]
    push_cast
    field_simp

/-! ## The hit rate of non-negative totals -/

theorem wrapInt_range (x : Int) : -2 ^ 31 ≤ wrapInt x ∧ wrapInt x < 2 ^ 31 := by
  unfold wrapInt
  omega

theorem toDouble_hundred_mul {hc : Int} (h₁ : -2 ^ 31 ≤ hc) (h₂ : hc < 2 ^ 31) :
    toDouble (100 * (hc : ℚ)) = 100 * (hc : ℚ) := by
  have e : (100 * (hc : ℚ)) = ((100 * hc : Int) : ℚ) := by push_cast; ring
  unfold toDouble
  rw [e, roundToPrec_intCast]
  have h3 : |100 * hc| < 2 ^ 53 := by
    rw [abs_lt]
    constructor <;> omega
  exact_mod_cast h3

theorem hitRate_eq {hc : Int} (mc : Int) (h₁ : -2 ^ 31 ≤ hc) (h₂ : hc < 2 ^ 31)
    (hne : wrapInt (hc + mc) ≠ 0) :
    hitRate hc mc =
      some (toFloat (toDouble (100 * (hc : ℚ) / (wrapInt (hc + mc) : ℚ)))) := by
  unfold hitRate
  rw [if_neg hne, toDouble_hundred_mul h₁ h₂]

theorem hitRate_of_nat (h m : Nat) :
    0 ≤ toFloat (toDouble (100 * (h : ℚ) / ((h : ℚ) + (m : ℚ)))) ∧
      toFloat (toDouble (100 * (h : ℚ) / ((h : ℚ) + (m : ℚ)))) ≤ 100 ∧
      |toFloat (toDouble (100 * (h : ℚ) / ((h : ℚ) + (m : ℚ)))) -
          100 * (h : ℚ) / ((h : ℚ) + (m : ℚ))| ≤ 100 / 2 ^ 24 + 100 / 2 ^ 53 := by
  have hden : (0 : ℚ) ≤ (h : ℚ) + (m : ℚ) := by positivity
  have hq0 : (0 : ℚ) ≤ 100 * (h : ℚ) / ((h : ℚ) + (m : ℚ)) := by positivity
  have hq100 : 100 * (h : ℚ) / ((h : ℚ) + (m : ℚ)) ≤ ((100 : Nat) : ℚ) := by
    have hm0 : (0 : ℚ) ≤ (m : ℚ) := Nat.cast_nonneg m
    have hh0 : (0 : ℚ) ≤ (h : ℚ) := Nat.cast_nonneg h
    push_cast
    apply div_le_of_le_mul₀ hden (by norm_num)
    linarith
  have hd0 := roundToPrec_nonneg 53 hq0
  have hd100 := roundToPrec_le_natCast 53 hq0 hq100 (by norm_num)
  have hderr := abs_roundToPrec_sub_le 53 (100 * (h : ℚ) / ((h : ℚ) + (m : ℚ)))
  have hf0 := roundToPrec_nonneg 24 hd0
  have hf100 := roundToPrec_le_natCast 24 hd0 hd100 (by norm_num)
  have hferr := abs_roundToPrec_sub_le 24
    (roundToPrec 53 (100 * (h : ℚ) / ((h : ℚ) + (m : ℚ))))
  refine ⟨hf0, ?_, ?_⟩
  · have := hf100
    unfold toFloat toDouble
    push_cast at this
    exact this
  · unfold toFloat toDouble
    generalize 100 * (h : ℚ) / ((h : ℚ) + (m : ℚ)) = q0 at *
    generalize roundToPrec 53 q0 = q1 at *
    generalize roundToPrec 24 q1 = r at *
    rw [abs_of_nonneg hd0] at hferr
    rw [abs_of_nonneg hq0] at hderr
    have h1 : q1 / 2 ^ 24 ≤ 100 / 2 ^ 24 :=
      div_le_div_of_nonneg_right (by push_cast at hd100; exact hd100) (by positivity)
    have h2 : q0 / 2 ^ 53 ≤ 100 / 2 ^ 53 :=
      div_le_div_of_nonneg_right (by push_cast at hq100; exact hq100) (by positivity)
    have h3 : |r - q0| ≤ |r - q1| + |q1 - q0| := abs_sub_le r q1 q0
    linarith

/-! ## The claim on the log tool -/

/-- C9 (as stated, refuted): for the records `(1,0), (1,0), (0,1)` the totals
are 2 and 1, their sum is not zero, and the reported hit rate is the `float`
`8738133 / 2^17`, which is not the rational `100 * 2 / (2 + 1)`; and for the
records `(2147483647, 0), (1, 0)` the hit total is `-2147483648`, not the sum. -/
theorem hit_rate_not_exact_rational :
    report [(1, 0), (1, 0), (0, 1)] = (2, 1, some (8738133 / 131072)) ∧
      (2 : Int) + 1 ≠ 0 ∧
      (8738133 / 131072 : ℚ) ≠ 100 * 2 / (2 + 1) ∧
      (report [(2147483647, 0), (1, 0)]).1 = -2147483648 ∧
      (2147483647 : Int) + 1 ≠ -2147483648 := by
  refine ⟨by decide!, by decide, by norm_num, by decide!, by decide⟩

/-- C9 (amended): for every sequence of parsed records the totals are the sums of
the `hit` and of the `miss` fields reduced to the range of a 32-bit `int`, equal
to the sums when these lie in that range; and whenever the `int` sum
`hit_count + miss_count` is not zero, the reported hit rate is the rational
`100 * hit_count / (hit_count + miss_count)` rounded to the nearest `double` and
then to the nearest `float`.  When all fields are non-negative and the two sums
together stay below `2^31`, that rate is the rounding of the rational of the
sums, lies in `[0, 100]` and differs from the rational by at most
`100 / 2^24 + 100 / 2^53`. -/
theorem hit_rate_rounded (records : List (Int × Int)) :
    (report records).1 = wrapInt (records.map Prod.fst).sum ∧
      (report records).2.1 = wrapInt (records.map Prod.snd).sum ∧
      (-2 ^ 31 ≤ (records.map Prod.fst).sum → (records.map Prod.fst).sum < 2 ^ 31 →
        (report records).1 = (records.map Prod.fst).sum) ∧
      (-2 ^ 31 ≤ (records.map Prod.snd).sum → (records.map Prod.snd).sum < 2 ^ 31 →
        (report records).2.1 = (records.map Prod.snd).sum) ∧
      (wrapInt ((report records).1 + (report records).2.1) ≠ 0 →
        (report records).2.2 =
          some (toFloat (toDouble (100 * ((report records).1 : ℚ) /
            (wrapInt ((report records).1 + (report records).2.1) : ℚ))))) ∧
      ((∀ r ∈ records, 0 ≤ r.1 ∧ 0 ≤ r.2) →
        (records.map Prod.fst).sum + (records.map Prod.snd).sum < 2 ^ 31 →
        (records.map Prod.fst).sum + (records.map Prod.snd).sum ≠ 0 →
        ∃ r : ℚ, (report records).2.2 = some r ∧
          r = toFloat (toDouble (100 * ((records.map Prod.fst).sum : ℚ) /
            (((records.map Prod.fst).sum : ℚ) + ((records.map Prod.snd).sum : ℚ)))) ∧
          0 ≤ r ∧ r ≤ 100 ∧
          |r - 100 * ((records.map Prod.fst).sum : ℚ) /
            (((records.map Prod.fst).sum : ℚ) + ((records.map Prod.snd).sum : ℚ))| ≤
            100 / 2 ^ 24 + 100 / 2 ^ 53) := by
  have hacc := accumulate_eq records
  have h1 : (report records).1 = wrapInt (records.map Prod.fst).sum := by
    show (accumulate records).1 = _
    rw [hacc]
  have h2 : (report records).2.1 = wrapInt (records.map Prod.snd).sum := by
    show (accumulate records).2 = _
    rw [hacc]
  have h3 : wrapInt ((report records).1 + (report records).2.1) ≠ 0 →
      (report records).2.2 =
        some (toFloat (toDouble (100 * ((report records).1 : ℚ) /
          (wrapInt ((report records).1 + (report records).2.1) : ℚ)))) := by
    intro hne
    have hr := wrapInt_range (records.map Prod.fst).sum
    exact hitRate_eq _ (h1 ▸ hr.1) (h1 ▸ hr.2) hne
  refine ⟨h1, h2, fun ha hb => by rw [h1, wrapInt_of_fits ha hb],
    fun ha hb => by rw [h2, wrapInt_of_fits ha hb], h3, ?_⟩
  intro hnn hfit hne
  have hH : 0 ≤ (records.map Prod.fst).sum :=
    sum_nonneg_of_forall (fun x hx => by
      obtain ⟨r, hr, rfl⟩ := List.mem_map.mp hx
      exact (hnn r hr).1)
  have hM : 0 ≤ (records.map Prod.snd).sum :=
    sum_nonneg_of_forall (fun x hx => by
      obtain ⟨r, hr, rfl⟩ := List.mem_map.mp hx
      exact (hnn r hr).2)
  have e1 : (report records).1 = (records.map Prod.fst).sum := by
    rw [h1, wrapInt_of_fits (by omega) (by omega)]
  have e2 : (report records).2.1 = (records.map Prod.snd).sum := by
    rw [h2, wrapInt_of_fits (by omega) (by omega)]
  have e3 : wrapInt ((records.map Prod.fst).sum + (records.map Prod.snd).sum) =
      (records.map Prod.fst).sum + (records.map Prod.snd).sum :=
    wrapInt_of_fits (by omega) (by omega)
  rw [e1, e2, e3] at h3
  have h4 := h3 hne
  obtain ⟨h, hh⟩ := Int.eq_ofNat_of_zero_le hH
  obtain ⟨m, hm⟩ := Int.eq_ofNat_of_zero_le hM
  rw [hh, hm] at h4 ⊢
  have hb := hitRate_of_nat h m
  push_cast at h4 ⊢
  exact ⟨_, h4, rfl, hb⟩

theorem hit_rate_rounded_witness :
    (∀ r ∈ [((1 : Int), (0 : Int)), (1, 0), (0, 1)], 0 ≤ r.1 ∧ 0 ≤ r.2) ∧
      (report [(1, 0), (1, 0), (0, 1)]).1 = 2 ∧ (report [(1, 0), (1, 0), (0, 1)]).2.1 = 1 ∧
      ∃ r : ℚ, (report [(1, 0), (1, 0), (0, 1)]).2.2 = some r ∧ 0 ≤ r ∧ r ≤ 100 := by
  have hnn : ∀ r ∈ [((1 : Int), (0 : Int)), (1, 0), (0, 1)], 0 ≤ r.1 ∧ 0 ≤ r.2 := by decide
  have w := hit_rate_rounded [(1, 0), (1, 0), (0, 1)]
  obtain ⟨r, hr, _, h0, h100, _⟩ := w.2.2.2.2.2 hnn (by decide) (by decide)
  exact ⟨hnn, w.2.2.1 (by decide) (by decide), w.2.2.2.1 (by decide) (by decide),
    r, hr, h0, h100⟩

end HitRate
